import Mathlib

/-!
Verification development for the venture-market LMSR automated market maker.

The Python sources under `backend/app/` are shallowly embedded below over exact
real arithmetic: Python floats become `ℝ`, Python lists become `List ℝ`, and the
float-overflow / NaN guard branches of the source (which can never fire in exact
real arithmetic) are embedded as `Option` values where the source propagates NaN
or returns an explicit error dictionary.  Definitions keep the source's names.
-/

open scoped Classical

noncomputable section

/-! ## Definitions -/

/-! ### Generic list helpers shared by the embeddings -/

/-- Embeds the Python list comprehension
`[qk + s if i == k else qk for i, qk in enumerate(q)]`: add `s` to the entry at
index `k`, leaving all other entries (and out-of-range `k`) untouched. -/
def addAt : List ℝ → ℕ → ℝ → List ℝ
  | [], _, _ => []
  | x :: xs, 0, s => (x + s) :: xs
  | x :: xs, Nat.succ k, s => x :: addAt xs k s

/-- Python's builtin `max` over a list (`0` on the empty list, where Python
raises `ValueError`; every use below is guarded by non-emptiness). -/
def listMax : List ℝ → ℝ
  | [] => 0
  | x :: xs => xs.foldl max x

/-! ### `lmsr.py` -/

/-- `lmsr.lmsr_cost`: numerically stable LMSR cost
`b * (log (sum exp ((q_k - max q) / b)) + max q / b)`. -/
def lmsr_cost (q : List ℝ) (b : ℝ) : ℝ :=
  let max_q := listMax q
  let sum_exp := (q.map (fun qk => Real.exp ((qk - max_q) / b))).sum
  b * (Real.log sum_exp + max_q / b)

/-- `lmsr.lmsr_prices`: softmax price vector computed with the max-subtraction
stabilisation of the source. -/
def lmsr_prices (q : List ℝ) (b : ℝ) : List ℝ :=
  let max_q := listMax q
  let exp_q := q.map (fun qk => Real.exp ((qk - max_q) / b))
  let sum_exp := exp_q.sum
  exp_q.map (fun e => e / sum_exp)

/-- Embeds `[qk + (delta[i] if i < len(delta) else 0) for i, qk in enumerate(q)]`
from `lmsr.lmsr_trade`. -/
def addDelta : List ℝ → List ℝ → List ℝ
  | [], _ => []
  | qk :: rest, [] => qk :: addDelta rest []
  | qk :: rest, d :: ds => (qk + d) :: addDelta rest ds

/-- Result dictionary of `lmsr.lmsr_trade`. -/
structure TradeResult where
  payment : ℝ
  q_after : List ℝ

/-- `lmsr.lmsr_trade`: apply the whole vector move `delta` to `q` and charge the
cost difference over the entire move. -/
def lmsr_trade (q : List ℝ) (delta : List ℝ) (b : ℝ) : TradeResult :=
  let q_after := addDelta q delta
  { payment := lmsr_cost q_after b - lmsr_cost q b, q_after := q_after }

/-! ### `lmsr_bid_ask.py` (textual twins of the two functions above) -/

/-- `lmsr_bid_ask.lmsr_cost_sparse` (same body as `lmsr_cost`). -/
def lmsr_cost_sparse (q : List ℝ) (b : ℝ) : ℝ :=
  let max_q := listMax q
  let sum_exp := (q.map (fun qk => Real.exp ((qk - max_q) / b))).sum
  b * (Real.log sum_exp + max_q / b)

/-- `lmsr_bid_ask.lmsr_prices_sparse` (same body as `lmsr_prices`). -/
def lmsr_prices_sparse (q : List ℝ) (b : ℝ) : List ℝ :=
  let max_q := listMax q
  let exp_q := q.map (fun qk => Real.exp ((qk - max_q) / b))
  let sum_exp := exp_q.sum
  exp_q.map (fun e => e / sum_exp)

/-! ### `amm_state.py`: the Grid/Knot Store -/

/-- A grid knot `\x7b'x': value, 'q': quantity\x7d`. -/
structure Knot where
  x : ℝ
  q : ℝ

/-- The per-market AMM state dictionary of `amm_state.py`. -/
structure AmmState where
  knots : List Knot
  bankroll : ℝ
  b : ℝ
  min_val : ℝ
  max_val : ℝ

/-- `amm_state.DEFAULT_BANKROLL`. -/
def DEFAULT_BANKROLL : ℝ := 5000

/-- The duck-typed `prior` parameter of `get_amm_state`: `None`, a callable, or
an explicit sequence. -/
inductive PriorArg where
  | noPrior
  | fn (f : ℕ → ℕ → ℝ → ℝ → ℝ)
  | seq (l : List ℝ)

/-- The `p_k0` list computed by `get_amm_state` from the `prior` argument
(uniform, callable evaluated per index then renormalised, or an explicit
sequence renormalised). -/
def priorProbs : PriorArg → ℕ → ℝ → ℝ → List ℝ
  | .noPrior, N, _, _ => List.replicate N ((1 : ℝ) / N)
  | .fn f, N, mn, mx =>
      let p := (List.range N).map (fun i => f i N mn mx)
      let S := p.sum
      p.map (fun pk => pk / S)
  | .seq l, _, _, _ =>
      let S := l.sum
      l.map (fun pk => pk / S)

/-- `amm_state.get_amm_state`, fresh-initialisation path: the state built when
`market_id` is not yet in the in-process `AMM_STATE` dictionary (the dictionary
and its lock are process state outside this shallow embedding).  Knots are laid
out log-uniformly between `min_val` and `max_val` and seeded with
`q_k = b * log p_k0`. -/
def get_amm_state (N : ℕ) (min_val max_val : ℝ) (prior : PriorArg) : AmmState :=
  let log_min := Real.log min_val
  let log_max := Real.log max_val
  let b := DEFAULT_BANKROLL / Real.log N
  let p_k0 := priorProbs prior N min_val max_val
  let knots := (List.range N).map (fun (i : ℕ) =>
    ({ x := Real.exp (log_min + (log_max - log_min) * (i : ℝ) / ((N : ℝ) - 1)),
       q := b * Real.log (p_k0.getD i 0) } : Knot))
  { knots := knots, bankroll := DEFAULT_BANKROLL, b := b,
    min_val := min_val, max_val := max_val }

/-- `amm_state.insert_knot`: no-op when a knot within `1e-6` of `x` exists,
otherwise append a fresh zero-quantity knot, re-sort by `x` (Python's stable
`list.sort`), and recompute `b = bankroll / log N` from the new knot count. -/
def insert_knot (state : AmmState) (x : ℝ) : AmmState :=
  if ∃ knot ∈ state.knots, |knot.x - x| < 1e-6 then state
  else
    let ks := (state.knots ++ [(⟨x, 0⟩ : Knot)]).mergeSort
      (fun a b => decide (a.x ≤ b.x))
    { state with knots := ks, b := state.bankroll / Real.log (ks.length : ℝ) }

/-- `amm_state.Z`: sum of exponentials `sum exp (q_k / b)`.  In exact real
arithmetic the `OverflowError` and non-finiteness branches of the source cannot
fire; `Z = 0` happens exactly for the empty list (where the source substitutes
`inf`, making the cost below NaN, embedded as `none`). -/
def Z (q : List ℝ) (b : ℝ) : ℝ := (q.map (fun qk => Real.exp (qk / b))).sum

/-- `amm_state.C`: `b * log Z`, with the source's NaN result (for non-positive
or infinite `Z`) embedded as `none`. -/
def C (q : List ℝ) (b : ℝ) : Option ℝ :=
  if Z q b ≤ 0 then none else some (b * Real.log (Z q b))

/-- `amm_state.px`: softmax prices, or an all-zero vector when `Z` is `0` or
infinite, mirroring the source's guard (only the `Z = 0` case exists in ℝ). -/
def px (q : List ℝ) (b : ℝ) : List ℝ :=
  if Z q b = 0 then q.map (fun _ => (0 : ℝ))
  else q.map (fun qk => Real.exp (qk / b) / Z q b)

/-- `amm_state.ask`: cost delta of adding `s` shares at index `k`; NaN
(embedded as `none`) when either cost is NaN. -/
def ask (q : List ℝ) (b : ℝ) (k : ℕ) (s : ℝ) : Option ℝ :=
  match C (addAt q k s) b, C q b with
  | some c_new, some c_old => some (c_new - c_old)
  | _, _ => none

/-- `amm_state.bid`: cost recovered by removing `s` shares at index `k`; NaN
(embedded as `none`) when either cost is NaN. -/
def bid (q : List ℝ) (b : ℝ) (k : ℕ) (s : ℝ) : Option ℝ :=
  match C (addAt q k (-s)) b, C q b with
  | some c_new, some c_old => some (c_old - c_new)
  | _, _ => none

/-- The quote dictionary returned by `amm_state.get_quotes_for_bucket`. -/
structure Quote where
  bid : ℝ
  mid : ℝ
  ask : ℝ
  liquidity : ℝ

/-- Python's `round(x, d)` (ties are rounded via Mathlib's `round`, which
differs from Python's bankers rounding only at exact half-ulp ties). -/
def roundTo (d : ℕ) (x : ℝ) : ℝ := ((round (x * 10 ^ d) : ℤ) : ℝ) / 10 ^ d

/-- `amm_state.get_quotes_for_bucket`.  `none` embeds both the explicit error
dictionary (non-finite bid/mid/ask/liquidity) and the blanket `except` path
(for example the `IndexError` on an out-of-range bucket index). -/
def get_quotes_for_bucket (state : AmmState) (k : ℕ) (size : ℝ) : Option Quote :=
  let q := state.knots.map (fun kn => kn.q)
  let b := state.b
  let liquidity := b * Real.log (q.length : ℝ)
  if k < q.length then
    match ask q b k size, bid q b k size with
    | some ask_price, some bid_price =>
        some { bid := roundTo 6 bid_price, mid := roundTo 6 ((px q b).getD k 0),
               ask := roundTo 6 ask_price, liquidity := roundTo 2 liquidity }
    | _, _ => none
  else none

/-! ### `amm_orders.py`: the Order Execution Engine -/

/-- `amm_orders.DELTA_Q_MAX`: maximum shares per fill step. -/
def DELTA_Q_MAX : ℝ := 10

/-- A per-market entry of the `ORDER_BOOK` dictionary. -/
structure OBState where
  q : List ℝ
  b : ℝ

/-- The result dictionary of `amm_orders.place_order` (the `side` and
`bucket_idx` fields, plain echoes of the inputs, are omitted). -/
structure OrderResult where
  filled : ℝ
  avg_price : ℝ
  remaining : ℝ
  status : String

/-- The `while size_left > 0` fill loop of `amm_orders.place_order`.  The
Python loop terminates after `ceil(size / DELTA_Q_MAX)` iterations; `fuel`
bounds the recursion and does not affect the result whenever
`size ≤ 10 * fuel` (proved in `order_fill_loop_market`).  The source mutates
`q` in place before the limit check, so on the `break` path the already
mutated `q` is what remains — embedded faithfully here by returning `q'` on
that path. -/
def order_fill_loop (b : ℝ) (idx : ℕ) (side order_type : String) (limit_price : ℝ) :
    ℕ → List ℝ → ℝ → ℝ → ℝ → List ℝ × ℝ × ℝ
  | 0, q, filled, total_paid, _ => (q, filled, total_paid)
  | Nat.succ fuel, q, filled, total_paid, size_left =>
    if 0 < size_left then
      let dq := min size_left DELTA_Q_MAX
      let q' := if side = "buy" then addAt q idx dq else addAt q idx (-dq)
      let price := if side = "buy" then lmsr_cost_sparse q' b - lmsr_cost_sparse q b
        else lmsr_cost_sparse q b - lmsr_cost_sparse q' b
      if order_type = "limit" ∧
          ((side = "buy" ∧ limit_price < price) ∨ (side = "sell" ∧ price < limit_price)) then
        (q', filled, total_paid)
      else
        order_fill_loop b idx side order_type limit_price fuel q' (filled + dq)
          (total_paid + price) (size_left - dq)
    else (q, filled, total_paid)

/-- `amm_orders.place_order`.  `none` embeds the `'status': 'error'` dictionary
returned when no AMM state exists for the market; otherwise the updated stored
state (`state['q'] = q`) is returned together with the result dictionary. -/
def place_order (st : Option OBState) (bucket_idx : ℕ) (side : String) (size : ℝ)
    (order_type : String) (limit_price : ℝ) (fuel : ℕ) :
    Option (OBState × OrderResult) :=
  match st with
  | none => none
  | some state =>
    let out := order_fill_loop state.b bucket_idx side order_type limit_price fuel
      state.q 0 0 size
    some (⟨out.1, state.b⟩,
      { filled := out.2.1,
        avg_price := if out.2.1 ≠ 0 then out.2.2 / out.2.1 else 0,
        remaining := size - out.2.1,
        status := if out.2.1 = size then "filled" else "partial" })

/-! ### `threshold_contracts.py`: the Threshold Contract Pricer -/

/-- `threshold_contracts.payoff_vector`: `w_k = 1` for knots with `x >= val`
(direction 'long') or `x <= val` (any other direction string), else `0`. -/
def payoff_vector (knots : List Knot) (val : ℝ) (direction : String) : List ℝ :=
  let x_list := knots.map (fun k => k.x)
  if direction = "long" then x_list.map (fun x => if val ≤ x then (1:ℝ) else 0)
  else x_list.map (fun x => if x ≤ val then (1:ℝ) else 0)

/-- `threshold_contracts.price_per_contract`: `sum (w_k * p_k)` over
`zip(w, prices)`. -/
def price_per_contract (prices : List ℝ) (w : List ℝ) : ℝ :=
  ((w.zip prices).map (fun pr => pr.1 * pr.2)).sum

/-! ### `api.quote_and_trade`: the threshold-contract trade path -/

/-- Embeds the bucket resolution
`next((i for i, knot in enumerate(knots) if abs(knot['x'] - val) < 1e-6), None)`
of `api.quote_and_trade`. -/
def matchIdxAux : List Knot → ℝ → ℕ → Option ℕ
  | [], _, _ => none
  | kn :: rest, val, i => if |kn.x - val| < 1e-6 then some i else matchIdxAux rest val (i + 1)

/-- Index of the first knot within `1e-6` of `val`, if any. -/
def matchIdx (knots : List Knot) (val : ℝ) : Option ℕ := matchIdxAux knots val 0

/-- Embeds the state commit
`for i in range(len(knots)): knots[i]['q'] = q_after[i]`. -/
def setQs (knots : List Knot) (qs : List ℝ) : List Knot :=
  (knots.zip qs).map (fun pr => ⟨pr.1.x, pr.2⟩)

/-- `api.quote_and_trade` with `execute = True` (the trade path, lines 342-404):
insert the valuation knot, resolve the bucket by value, quote via
`get_quotes_for_bucket`, then commit a single-knot quantity update
`q_after = [qk + (n if i == k else 0) ...]` and charge the quoted rounded ask
(buy) or bid (sell).  `none` embeds the HTTP error paths (unresolvable bucket,
math-error quote, invalid direction); the wallet debit and the `Bet` row are
ledger/persistence collaborators outside the AMM core. -/
def quote_and_trade (st : AmmState) (val : ℝ) (dir : String) (n : ℝ) :
    Option (AmmState × ℝ) :=
  let st1 := insert_knot st val
  match matchIdx st1.knots val with
  | none => none
  | some k =>
    match get_quotes_for_bucket st1 k n with
    | none => none
    | some quote =>
      let q := st1.knots.map (fun kn => kn.q)
      if dir = "buy" then
        some ({ st1 with knots := setQs st1.knots (addAt q k n) }, quote.ask)
      else if dir = "sell" then
        some ({ st1 with knots := setQs st1.knots (addAt q k (-n)) }, quote.bid)
      else none

/-! ### `implied_distribution.py`: the Implied Distribution Calibrator -/

/-- Standard normal CDF (`scipy.stats.norm.cdf`). -/
def norm_cdf (z : ℝ) : ℝ :=
  ∫ t in Set.Iic z, Real.exp (-(t ^ 2) / 2) / Real.sqrt (2 * Real.pi)

/-- The running cumulative-sum list built by the source's `cdf` loop. -/
def cdfFrom (s : ℝ) : List ℝ → List ℝ
  | [] => []
  | pk :: rest => (s + pk) :: cdfFrom (s + pk) rest

/-- The backwards tail walk of the source: starting from the high end,
accumulate mass until it first exceeds 10% and return that index; the
accumulator walks the reversed list while `i` counts down from the last
index. -/
def findTauAux : List ℝ → ℝ → ℕ → ℕ → ℕ
  | [], _, _, dflt => dflt
  | pk :: rest, acc, i, dflt =>
      if 1 / 10 < acc + pk then i else findTauAux rest (acc + pk) (i - 1) dflt

/-- `tau`: the body/tail split index (defaults to the last index when the walk
never trips, mirroring the initialisation `tau = len(p) - 1`). -/
def findTau (p : List ℝ) : ℕ := findTauAux p.reverse 0 (p.length - 1) (p.length - 1)

/-- `x = [math.log10(k['x']) for k in knots]`. -/
def xsOf (knots : List Knot) : List ℝ := knots.map (fun k => Real.logb 10 k.x)

/-- `sum(pk * xk for pk, xk in zip(ps, xs))`. -/
def pairSum (ps xs : List ℝ) : ℝ := ((ps.zip xs).map (fun pr => pr.1 * pr.2)).sum

/-- `sum(pk * xk**2 for pk, xk in zip(ps, xs))`. -/
def pairSumSq (ps xs : List ℝ) : ℝ := ((ps.zip xs).map (fun pr => pr.1 * pr.2 ^ 2)).sum

/-- `mu`: mass-weighted mean of `log10 x` over the body `p[:tau+1]`. -/
def muOf (p : List ℝ) (knots : List Knot) : ℝ :=
  pairSum (p.take (findTau p + 1)) ((xsOf knots).take (findTau p + 1)) /
    (p.take (findTau p + 1)).sum

/-- `sigma = sqrt(max(mu2 - mu^2, 1e-8))`. -/
def sigmaOf (p : List ℝ) (knots : List Knot) : ℝ :=
  Real.sqrt (max
    (pairSumSq (p.take (findTau p + 1)) ((xsOf knots).take (findTau p + 1)) /
      (p.take (findTau p + 1)).sum - (muOf p knots) ^ 2) 1e-8)

/-- `x_tau = x[tau] if len(x) > tau else x[-1]` (the `x[-1]` fallback embedded
with `getLastD`; Python raises there on an empty list). -/
def xTauOf (p : List ℝ) (knots : List Knot) : ℝ :=
  if findTau p < (xsOf knots).length then (xsOf knots).getD (findTau p) 0
  else (xsOf knots).getLastD 0

/-- `denom = sum(pk * (xk - x_tau) for pk, xk in zip(p_tail, x_tail) if xk > x_tau)`. -/
def denomOf (p : List ℝ) (knots : List Knot) : ℝ :=
  ((((p.drop (findTau p)).zip ((xsOf knots).drop (findTau p))).filter
    (fun pr => decide (xTauOf p knots < pr.2))).map
      (fun pr => pr.1 * (pr.2 - xTauOf p knots))).sum

/-- The Pareto tail index: `Z_tail / denom` guarded by the source's tail-size
and positivity checks, defaulting to `2.0`. -/
def alphaBaseOf (p : List ℝ) (knots : List Knot) : ℝ :=
  if 0 < (p.drop (findTau p)).sum ∧ 1 < ((xsOf knots).drop (findTau p)).length then
    (if 0 < denomOf p knots then (p.drop (findTau p)).sum / denomOf p knots else 2)
  else 2

/-- `S_tau = 1.0 - cdf[tau]` (`getD` where Python would raise on empty). -/
def sTauOf (p : List ℝ) : ℝ := 1 - (cdfFrom 0 p).getD (findTau p) 0

/-- The source's local `F_LN`: normalised lognormal body CDF. -/
def F_LN (p : List ℝ) (knots : List Knot) (xK : ℝ) : ℝ :=
  if sigmaOf p knots < 1e-8 then (if muOf p knots < xK then 1 else 0)
  else
    min (max ((norm_cdf ((xK - muOf p knots) / sigmaOf p knots)) /
      (if 0 < norm_cdf ((xTauOf p knots - muOf p knots) / sigmaOf p knots)
        then norm_cdf ((xTauOf p knots - muOf p knots) / sigmaOf p knots) else 1)) 0) 1

/-- The source's local `hybrid_prob`: lognormal body below the split,
power-law decay `S_tau * 10 ** (-alpha * (xK - x_tau))` at or above it. -/
def hybrid_prob (p : List ℝ) (knots : List Knot) (xK alpha : ℝ) : ℝ :=
  if xK < xTauOf p knots then 1 - F_LN p knots xK * (1 - sTauOf p) + sTauOf p
  else sTauOf p * (10 : ℝ) ^ (-alpha * (xK - xTauOf p knots))

/-- The result dictionary of `lmsr_lognormal_pareto` (`tau` holds the log10
split value `x_tau`, as in the source). -/
structure ImpliedResult where
  base : ℝ
  low : ℝ
  high : ℝ
  mu : ℝ
  sigma : ℝ
  alpha_base : ℝ
  tau : ℝ

/-- `implied_distribution.lmsr_lognormal_pareto`: scenario probabilities for
the threshold `K` under the fitted tail index and its `∓ delta` perturbations. -/
def lmsr_lognormal_pareto (p : List ℝ) (knots : List Knot) (K : ℝ) (delta : ℝ) :
    ImpliedResult :=
  { base := hybrid_prob p knots (Real.logb 10 K) (alphaBaseOf p knots),
    low := hybrid_prob p knots (Real.logb 10 K) (alphaBaseOf p knots - delta),
    high := hybrid_prob p knots (Real.logb 10 K) (alphaBaseOf p knots + delta),
    mu := muOf p knots, sigma := sigmaOf p knots,
    alpha_base := alphaBaseOf p knots, tau := xTauOf p knots }

/-- Concrete one-knot state used by the claim witnesses. -/
def testState : AmmState := ⟨[⟨1, 0⟩], 5000, 1, 1, 100⟩

/-- Concrete price vector for the implied-distribution scenario check. -/
def p9 : List ℝ := [1/2, 41/100, 9/100]

/-- Concrete knot grid (`x = 10, 100, 1000`) for that check. -/
def knots9 : List Knot := [⟨10, 0⟩, ⟨100, 0⟩, ⟨1000, 0⟩]

/-- Concrete three-knot state exercising the threshold-contract trade path. -/
def c5State : AmmState := ⟨[⟨1, 0⟩, ⟨2, 0⟩, ⟨4, 0⟩], 5000, 1, 1, 4⟩

/-- The stored state after a threshold buy of 1 unit at `val = 2` on
`c5State`: only the matched knot's quantity moves. -/
def c5StateAfter : AmmState := ⟨[⟨1, 0⟩, ⟨2, 1⟩, ⟨4, 0⟩], 5000, 1, 1, 4⟩

/-- The rounded single-knot ask charged by that trade. -/
def c5Pay : ℝ := roundTo 6 (1 * Real.log (Z [0, 1, 0] 1) - 1 * Real.log (Z [0, 0, 0] 1))

/-! ## Theorems -/

/-! ### Facts about `listMax` and the stabilised exponential sum -/

lemma foldl_max_init_le (xs : List ℝ) : ∀ x : ℝ, x ≤ xs.foldl max x := by
  induction xs with
  | nil => intro x; exact le_rfl
  | cons y ys ih =>
    intro x
    calc x ≤ max x y := le_max_left x y
    _ ≤ ys.foldl max (max x y) := ih (max x y)

lemma mem_le_foldl_max (xs : List ℝ) : ∀ (x y : ℝ), y ∈ xs → y ≤ xs.foldl max x := by
  induction xs with
  | nil => intro x y hy; exact absurd hy (List.not_mem_nil y)
  | cons z zs ih =>
    intro x y hy
    rcases List.mem_cons.mp hy with h | h
    · subst h
      calc y ≤ max x y := le_max_right x y
      _ ≤ zs.foldl max (max x y) := foldl_max_init_le zs _
    · exact ih (max x z) y h

lemma le_listMax (q : List ℝ) (y : ℝ) (hy : y ∈ q) : y ≤ listMax q := by
  cases q with
  | nil => exact absurd hy (List.not_mem_nil y)
  | cons x xs =>
    rcases List.mem_cons.mp hy with h | h
    · subst h; exact foldl_max_init_le xs y
    · exact mem_le_foldl_max xs x y h

lemma foldl_max_mem (xs : List ℝ) : ∀ x : ℝ, xs.foldl max x ∈ x :: xs := by
  induction xs with
  | nil => intro x; exact List.mem_singleton.mpr rfl
  | cons y ys ih =>
    intro x
    have h := ih (max x y)
    simp only [List.foldl_cons]
    rcases List.mem_cons.mp h with h1 | h1
    · rcases max_choice x y with h2 | h2
      · rw [h1, h2]; exact List.mem_cons_self x (y :: ys)
      · rw [h1, h2]; exact List.mem_cons_of_mem x (List.mem_cons_self y ys)
    · exact List.mem_cons_of_mem x (List.mem_cons_of_mem y h1)

lemma listMax_mem (q : List ℝ) (hq : q ≠ []) : listMax q ∈ q := by
  cases q with
  | nil => exact absurd rfl hq
  | cons x xs => exact foldl_max_mem xs x

/-- The stabilised exponential sum contains the term `exp 0 = 1` coming from the
maximal entry, and all terms are positive, so it is at least 1. -/
lemma one_le_sum_exp_shift (q : List ℝ) (b : ℝ) (hq : q ≠ []) :
    1 ≤ (q.map (fun qk => Real.exp ((qk - listMax q) / b))).sum := by
  have hmem : Real.exp ((listMax q - listMax q) / b) ∈
      q.map (fun qk => Real.exp ((qk - listMax q) / b)) :=
    List.mem_map_of_mem _ (listMax_mem q hq)
  have hval : Real.exp ((listMax q - listMax q) / b) = 1 := by
    rw [sub_self, zero_div, Real.exp_zero]
  have hnn : ∀ x ∈ q.map (fun qk => Real.exp ((qk - listMax q) / b)), (0:ℝ) ≤ x := by
    intro x hx
    rcases List.mem_map.mp hx with ⟨qk, _, rfl⟩
    exact (Real.exp_pos _).le
  have := List.single_le_sum hnn _ hmem
  rw [hval] at this
  exact this

lemma sum_exp_shift_pos (q : List ℝ) (b : ℝ) (hq : q ≠ []) :
    0 < (q.map (fun qk => Real.exp ((qk - listMax q) / b))).sum := by
  apply List.sum_pos
  · intro x hx
    rcases List.mem_map.mp hx with ⟨qk, _, rfl⟩
    exact Real.exp_pos _
  · simp [hq]

/-! ### Claim C10 -/

lemma lmsr_cost_ge_max (q : List ℝ) (b : ℝ) (hq : q ≠ []) (hb : 0 < b) :
    listMax q ≤ lmsr_cost q b := by
  unfold lmsr_cost
  have hS := one_le_sum_exp_shift q b hq
  have hlog : 0 ≤ Real.log ((q.map (fun qk => Real.exp ((qk - listMax q) / b))).sum) :=
    Real.log_nonneg hS
  have hbd : b * (listMax q / b) = listMax q := mul_div_cancel₀ _ (ne_of_gt hb)
  calc listMax q = 0 + listMax q := (zero_add _).symm
  _ ≤ b * Real.log ((q.map (fun qk => Real.exp ((qk - listMax q) / b))).sum) + listMax q := by
      have : 0 ≤ b * Real.log ((q.map (fun qk => Real.exp ((qk - listMax q) / b))).sum) :=
        mul_nonneg hb.le hlog
      linarith
  _ = b * (Real.log ((q.map (fun qk => Real.exp ((qk - listMax q) / b))).sum) + listMax q / b) := by
      rw [mul_add, hbd]

/-- Claim C10: for every non-empty `q` and `b > 0`, the stabilised exponential
sum inside `lmsr_cost` / `lmsr_cost_sparse` is at least 1 (so the logarithm's
argument is positive) and the cost is at least `max q`. -/
theorem C10_cost_well_defined (q : List ℝ) (b : ℝ) (hq : q ≠ []) (hb : 0 < b) :
    1 ≤ (q.map (fun qk => Real.exp ((qk - listMax q) / b))).sum ∧
    listMax q ≤ lmsr_cost q b ∧ listMax q ≤ lmsr_cost_sparse q b := by
  refine ⟨one_le_sum_exp_shift q b hq, lmsr_cost_ge_max q b hq hb, ?_⟩
  have : lmsr_cost_sparse q b = lmsr_cost q b := rfl
  rw [this]
  exact lmsr_cost_ge_max q b hq hb

/-- Witness for C10 at `q = [0]`, `b = 1`. -/
theorem C10_cost_well_defined_witness :
    (([0] : List ℝ) ≠ [] ∧ (0:ℝ) < 1) ∧
    (1 ≤ (([0] : List ℝ).map (fun qk => Real.exp ((qk - listMax [0]) / 1))).sum ∧
      listMax [0] ≤ lmsr_cost [0] 1 ∧ listMax [0] ≤ lmsr_cost_sparse [0] 1) :=
  ⟨⟨List.cons_ne_nil 0 [], one_pos⟩,
    C10_cost_well_defined [0] 1 (List.cons_ne_nil 0 []) one_pos⟩

/-! ### Claim C1 -/

lemma sum_map_div (l : List ℝ) (c : ℝ) : (l.map (fun e => e / c)).sum = l.sum / c := by
  induction l with
  | nil => simp
  | cons x xs ih => simp [add_div, ih]

lemma lmsr_prices_prob (q : List ℝ) (b : ℝ) (hq : q ≠ []) :
    (∀ p ∈ lmsr_prices q b, 0 ≤ p ∧ p ≤ 1) ∧ |(lmsr_prices q b).sum - 1| < 1e-6 := by
  unfold lmsr_prices
  have hSpos := sum_exp_shift_pos q b hq
  set l := q.map (fun qk => Real.exp ((qk - listMax q) / b)) with hl
  constructor
  · intro p hp
    rcases List.mem_map.mp hp with ⟨e, he, rfl⟩
    have he0 : 0 ≤ e := by
      rcases List.mem_map.mp he with ⟨qk, _, rfl⟩
      exact (Real.exp_pos _).le
    have heS : e ≤ l.sum := by
      apply List.single_le_sum _ _ he
      intro x hx
      rcases List.mem_map.mp hx with ⟨qk, _, rfl⟩
      exact (Real.exp_pos _).le
    constructor
    · exact div_nonneg he0 hSpos.le
    · exact (div_le_one hSpos).mpr heS
  · rw [sum_map_div, div_self (ne_of_gt hSpos)]
    simp only [sub_self, abs_zero]
    norm_num

/-- Claim C1: for non-empty `q` and `b > 0`, both `lmsr_prices` and
`lmsr_prices_sparse` return a valid probability vector: every entry lies in
`[0, 1]` and the entries sum to 1 within `1e-6` (exactly, in real arithmetic). -/
theorem C1_prices_probability_vector (q : List ℝ) (b : ℝ) (hq : q ≠ []) (hb : 0 < b) :
    ((∀ p ∈ lmsr_prices q b, 0 ≤ p ∧ p ≤ 1) ∧ |(lmsr_prices q b).sum - 1| < 1e-6) ∧
    ((∀ p ∈ lmsr_prices_sparse q b, 0 ≤ p ∧ p ≤ 1) ∧
      |(lmsr_prices_sparse q b).sum - 1| < 1e-6) := by
  have hsame : lmsr_prices_sparse q b = lmsr_prices q b := rfl
  refine ⟨lmsr_prices_prob q b hq, ?_⟩
  rw [hsame]
  exact lmsr_prices_prob q b hq

/-- Witness for C1 at `q = [0]`, `b = 1`. -/
theorem C1_prices_probability_vector_witness :
    (([0] : List ℝ) ≠ [] ∧ (0:ℝ) < 1) ∧
    (((∀ p ∈ lmsr_prices [0] 1, 0 ≤ p ∧ p ≤ 1) ∧ |(lmsr_prices [0] 1).sum - 1| < 1e-6) ∧
      ((∀ p ∈ lmsr_prices_sparse [0] 1, 0 ≤ p ∧ p ≤ 1) ∧
        |(lmsr_prices_sparse [0] 1).sum - 1| < 1e-6)) :=
  ⟨⟨List.cons_ne_nil 0 [], one_pos⟩,
    C1_prices_probability_vector [0] 1 (List.cons_ne_nil 0 []) one_pos⟩

/-! ### Facts about `addAt` and `Z` -/

lemma addAt_length (q : List ℝ) : ∀ (k : ℕ) (s : ℝ), (addAt q k s).length = q.length := by
  induction q with
  | nil => intro k s; rfl
  | cons x xs ih =>
    intro k s
    cases k with
    | zero => rfl
    | succ k => simp [addAt, ih k s]

lemma addAt_zero (q : List ℝ) : ∀ k : ℕ, addAt q k 0 = q := by
  induction q with
  | nil => intro k; rfl
  | cons x xs ih =>
    intro k
    cases k with
    | zero => simp [addAt]
    | succ k => simp [addAt, ih k]

lemma addAt_addAt (q : List ℝ) : ∀ (k : ℕ) (s t : ℝ),
    addAt (addAt q k s) k t = addAt q k (s + t) := by
  induction q with
  | nil => intro k s t; rfl
  | cons x xs ih =>
    intro k s t
    cases k with
    | zero => simp [addAt, add_assoc]
    | succ k => simp [addAt, ih k]

lemma addAt_ne_nil (q : List ℝ) (k : ℕ) (s : ℝ) (hq : q ≠ []) : addAt q k s ≠ [] := by
  intro h
  apply hq
  have := addAt_length q k s
  rw [h] at this
  exact List.length_eq_zero.mp this.symm

lemma Z_pos (q : List ℝ) (b : ℝ) (hq : q ≠ []) : 0 < Z q b := by
  apply List.sum_pos
  · intro x hx
    rcases List.mem_map.mp hx with ⟨qk, _, rfl⟩
    exact Real.exp_pos _
  · simp [hq]

lemma C_eq_some (q : List ℝ) (b : ℝ) (hq : q ≠ []) :
    C q b = some (b * Real.log (Z q b)) := by
  unfold C
  rw [if_neg (not_le.mpr (Z_pos q b hq))]

/-- Adding `s > 0` at a valid index strictly increases `Z`. -/
lemma Z_addAt_lt (b : ℝ) (hb : 0 < b) (s : ℝ) (hs : 0 < s) :
    ∀ (q : List ℝ) (k : ℕ), k < q.length → Z q b < Z (addAt q k s) b := by
  intro q
  induction q with
  | nil => intro k hk; exact absurd hk (Nat.not_lt_zero k)
  | cons x xs ih =>
    intro k hk
    cases k with
    | zero =>
      have hx : Real.exp (x / b) < Real.exp ((x + s) / b) := by
        apply Real.exp_lt_exp.mpr
        apply (div_lt_div_iff_of_pos_right hb).mpr
        linarith
      simp only [Z, addAt, List.map_cons, List.sum_cons]
      linarith [hx]
    | succ k =>
      have hk' : k < xs.length := Nat.succ_lt_succ_iff.mp hk
      have := ih k hk'
      simp only [Z, addAt, List.map_cons, List.sum_cons] at *
      linarith

lemma Z_subAt_lt (b : ℝ) (hb : 0 < b) (s : ℝ) (hs : 0 < s)
    (q : List ℝ) (k : ℕ) (hk : k < q.length) :
    Z (addAt q k (-s)) b < Z q b := by
  have h := Z_addAt_lt b hb s hs (addAt q k (-s)) k (by rw [addAt_length]; exact hk)
  rw [addAt_addAt, neg_add_cancel, addAt_zero] at h
  exact h

/-! ### Claim C2 -/

/-- Claim C2: for every non-empty `q`, `b > 0`, valid index `k` and `s > 0`,
`ask` and `bid` evaluate to finite values (in exact real arithmetic the NaN
branches cannot fire) and both are nonnegative. -/
theorem C2_ask_bid_nonneg (q : List ℝ) (b : ℝ) (k : ℕ) (s : ℝ)
    (hq : q ≠ []) (hb : 0 < b) (hk : k < q.length) (hs : 0 < s) :
    ∃ a bd : ℝ, ask q b k s = some a ∧ bid q b k s = some bd ∧ 0 ≤ a ∧ 0 ≤ bd := by
  have hq' : addAt q k s ≠ [] := addAt_ne_nil q k s hq
  have hq'' : addAt q k (-s) ≠ [] := addAt_ne_nil q k (-s) hq
  have hZq := Z_pos q b hq
  have hZdn := Z_pos (addAt q k (-s)) b hq''
  have hup : Z q b < Z (addAt q k s) b := Z_addAt_lt b hb s hs q k hk
  have hdn : Z (addAt q k (-s)) b < Z q b := Z_subAt_lt b hb s hs q k hk
  refine ⟨b * Real.log (Z (addAt q k s) b) - b * Real.log (Z q b),
    b * Real.log (Z q b) - b * Real.log (Z (addAt q k (-s)) b), ?_, ?_, ?_, ?_⟩
  · unfold ask
    rw [C_eq_some _ b hq', C_eq_some q b hq]
  · unfold bid
    rw [C_eq_some _ b hq'', C_eq_some q b hq]
  · have hlog : Real.log (Z q b) ≤ Real.log (Z (addAt q k s) b) :=
      Real.log_le_log hZq hup.le
    have := mul_le_mul_of_nonneg_left hlog hb.le
    linarith
  · have hlog : Real.log (Z (addAt q k (-s)) b) ≤ Real.log (Z q b) :=
      Real.log_le_log hZdn hdn.le
    have := mul_le_mul_of_nonneg_left hlog hb.le
    linarith

/-- Witness for C2 at `q = [0]`, `b = 1`, `k = 0`, `s = 1`. -/
theorem C2_ask_bid_nonneg_witness :
    (([0] : List ℝ) ≠ [] ∧ (0:ℝ) < 1 ∧ 0 < ([0] : List ℝ).length ∧ (0:ℝ) < 1) ∧
    (∃ a bd : ℝ, ask [0] 1 0 1 = some a ∧ bid [0] 1 0 1 = some bd ∧ 0 ≤ a ∧ 0 ≤ bd) :=
  ⟨⟨List.cons_ne_nil 0 [], one_pos, Nat.zero_lt_one, one_pos⟩,
    C2_ask_bid_nonneg [0] 1 0 1 (List.cons_ne_nil 0 []) one_pos Nat.zero_lt_one one_pos⟩

/-! ### Claim C7 -/

lemma insert_knot_noop (s : AmmState) (x' : ℝ)
    (h : ∃ kn ∈ s.knots, |kn.x - x'| < 1e-6) : insert_knot s x' = s := by
  unfold insert_knot
  rw [if_pos h]

/-- Claim C7: `insert_knot` is idempotent.  Inserting an `x'` within `1e-6` of
an existing knot leaves the state (knot count, quantities, and `b`) unchanged,
and inserting the same `x` twice equals inserting it once. -/
theorem C7_insert_knot_idempotent :
    (∀ (s : AmmState) (x' : ℝ), (∃ kn ∈ s.knots, |kn.x - x'| < 1e-6) →
      insert_knot s x' = s) ∧
    (∀ (s : AmmState) (x : ℝ), insert_knot (insert_knot s x) x = insert_knot s x) := by
  refine ⟨insert_knot_noop, ?_⟩
  intro s x
  by_cases h : ∃ kn ∈ s.knots, |kn.x - x| < 1e-6
  · rw [insert_knot_noop s x h, insert_knot_noop s x h]
  · have hmem : (⟨x, 0⟩ : Knot) ∈ (insert_knot s x).knots := by
      unfold insert_knot
      rw [if_neg h]
      simp only [List.mem_mergeSort]
      exact List.mem_append_right _ (List.mem_singleton.mpr rfl)
    apply insert_knot_noop
    exact ⟨⟨x, 0⟩, hmem, by simp only [sub_self, abs_zero]; norm_num⟩

/-- Witness for C7 on `testState`: inserting `x' = 1` (already present) is a
no-op, and inserting `x = 2` twice equals inserting it once. -/
theorem C7_insert_knot_idempotent_witness :
    ((∃ kn ∈ testState.knots, |kn.x - (1:ℝ)| < 1e-6) ∧
      insert_knot testState 1 = testState) ∧
    insert_knot (insert_knot testState 2) 2 = insert_knot testState 2 := by
  have hex : ∃ kn ∈ testState.knots, |kn.x - (1:ℝ)| < 1e-6 :=
    ⟨⟨1, 0⟩, List.mem_singleton.mpr rfl, by norm_num⟩
  exact ⟨⟨hex, C7_insert_knot_idempotent.1 testState 1 hex⟩,
    C7_insert_knot_idempotent.2 testState 2⟩

/-! ### Claim C8 -/

/-- Claim C8: the invariant `b = bankroll / log N` holds for the state built by
`get_amm_state` (for any grid of `N ≥ 2` knots) and is re-established by every
`insert_knot` call that changes the knot count. -/
theorem C8_liquidity_invariant :
    (∀ (N : ℕ) (min_val max_val : ℝ) (prior : PriorArg), 2 ≤ N →
      (get_amm_state N min_val max_val prior).b =
        (get_amm_state N min_val max_val prior).bankroll /
          Real.log (((get_amm_state N min_val max_val prior).knots.length : ℝ))) ∧
    (∀ (s : AmmState) (x : ℝ), (insert_knot s x).knots.length ≠ s.knots.length →
      (insert_knot s x).b = (insert_knot s x).bankroll /
        Real.log (((insert_knot s x).knots.length : ℝ))) := by
  constructor
  · intro N min_val max_val prior _
    have hlen : (get_amm_state N min_val max_val prior).knots.length = N := by
      simp [get_amm_state]
    rw [hlen]
    rfl
  · intro s x hlen
    by_cases h : ∃ kn ∈ s.knots, |kn.x - x| < 1e-6
    · exact absurd (by rw [insert_knot_noop s x h]) hlen
    · unfold insert_knot
      rw [if_neg h]

/-- Witness for C8: the initial 5-knot grid on `[1, 100]` satisfies the
invariant, and a length-changing insertion into `testState` re-establishes it. -/
theorem C8_liquidity_invariant_witness :
    ((2 ≤ 5) ∧
      (get_amm_state 5 1 100 .noPrior).b =
        (get_amm_state 5 1 100 .noPrior).bankroll /
          Real.log (((get_amm_state 5 1 100 .noPrior).knots.length : ℝ))) ∧
    ((insert_knot testState 2).knots.length ≠ testState.knots.length ∧
      (insert_knot testState 2).b = (insert_knot testState 2).bankroll /
        Real.log (((insert_knot testState 2).knots.length : ℝ))) := by
  have hne : ¬ ∃ kn ∈ testState.knots, |kn.x - (2:ℝ)| < 1e-6 := by
    rintro ⟨kn, hm, hlt⟩
    have : kn = (⟨1, 0⟩ : Knot) := List.mem_singleton.mp hm
    rw [this] at hlt
    norm_num at hlt
  have hlen : (insert_knot testState 2).knots.length =
      ((testState.knots ++ [(⟨2, 0⟩ : Knot)]).mergeSort
        (fun a b => decide (a.x ≤ b.x))).length := by
    unfold insert_knot
    rw [if_neg hne]
  have hlen2 : (insert_knot testState 2).knots.length ≠ testState.knots.length := by
    rw [hlen]
    simp [testState]
  exact ⟨⟨by norm_num, C8_liquidity_invariant.1 5 1 100 .noPrior (by norm_num)⟩,
    hlen2, C8_liquidity_invariant.2 testState 2 hlen2⟩

/-! ### The stable cost equals `b * log Z`, and is strictly monotone -/

lemma lmsr_cost_eq_unstable (q : List ℝ) (b : ℝ) (hq : q ≠ []) (hb : b ≠ 0) :
    lmsr_cost q b = b * Real.log (Z q b) := by
  have hmap : q.map (fun qk => Real.exp ((qk - listMax q) / b)) =
      q.map (fun qk => Real.exp (qk / b) * Real.exp (-(listMax q / b))) := by
    apply List.map_congr_left
    intro a _
    rw [← Real.exp_add]
    congr 1
    ring
  have hsum : (q.map (fun qk => Real.exp ((qk - listMax q) / b))).sum =
      Z q b * Real.exp (-(listMax q / b)) := by
    rw [hmap, List.sum_map_mul_right]
    rfl
  show b * (Real.log ((q.map (fun qk => Real.exp ((qk - listMax q) / b))).sum) +
    listMax q / b) = b * Real.log (Z q b)
  rw [hsum, Real.log_mul (ne_of_gt (Z_pos q b hq)) (Real.exp_ne_zero _), Real.log_exp]
  ring

lemma lmsr_cost_sparse_strict_mono (q : List ℝ) (b : ℝ) (k : ℕ) (s : ℝ)
    (hq : q ≠ []) (hb : 0 < b) (hk : k < q.length) (hs : 0 < s) :
    lmsr_cost_sparse q b < lmsr_cost_sparse (addAt q k s) b := by
  have h1 : lmsr_cost_sparse q b = b * Real.log (Z q b) :=
    lmsr_cost_eq_unstable q b hq (ne_of_gt hb)
  have h2 : lmsr_cost_sparse (addAt q k s) b = b * Real.log (Z (addAt q k s) b) :=
    lmsr_cost_eq_unstable (addAt q k s) b (addAt_ne_nil q k s hq) (ne_of_gt hb)
  rw [h1, h2]
  have hZ := Z_addAt_lt b hb s hs q k hk
  exact mul_lt_mul_of_pos_left (Real.log_lt_log (Z_pos q b hq) hZ) hb

/-! ### The fill loop on market orders -/

/-- For a market order the break branch never fires; with enough fuel the loop
adds exactly `size_left` at the target index (buy) or removes it (sell), and
the filled quantity grows by exactly `size_left`. -/
lemma order_fill_loop_market (b : ℝ) (idx : ℕ) (lp : ℝ) (side : String) :
    ∀ (fuel : ℕ) (q : List ℝ) (filled paid size_left : ℝ),
      0 ≤ size_left → size_left ≤ 10 * fuel →
      ∃ paid', order_fill_loop b idx side "market" lp fuel q filled paid size_left =
        (addAt q idx ((if side = "buy" then 1 else -1) * size_left),
          filled + size_left, paid') := by
  intro fuel
  induction fuel with
  | zero =>
    intro q filled paid size_left h0 h10
    have hz : size_left = 0 := le_antisymm (by simpa using h10) h0
    subst hz
    exact ⟨paid, by simp [order_fill_loop, addAt_zero]⟩
  | succ n ih =>
    intro q filled paid size_left h0 h10
    by_cases hpos : 0 < size_left
    · have hmin_le : min size_left DELTA_Q_MAX ≤ size_left := min_le_left _ _
      have hrest0 : 0 ≤ size_left - min size_left DELTA_Q_MAX := by linarith
      have hrest10 : size_left - min size_left DELTA_Q_MAX ≤ 10 * n := by
        rcases min_choice size_left DELTA_Q_MAX with h | h
        · rw [h]; linarith
        · rw [h]
          have : (10 : ℝ) * (n + 1) = 10 * n + 10 := by ring
          rw [DELTA_Q_MAX]
          push_cast at h10
          linarith
      obtain ⟨paid', hp⟩ := ih
        (if side = "buy" then addAt q idx (min size_left DELTA_Q_MAX)
          else addAt q idx (-(min size_left DELTA_Q_MAX)))
        (filled + min size_left DELTA_Q_MAX)
        (paid + (if side = "buy"
          then lmsr_cost_sparse (if side = "buy"
              then addAt q idx (min size_left DELTA_Q_MAX)
              else addAt q idx (-(min size_left DELTA_Q_MAX))) b - lmsr_cost_sparse q b
          else lmsr_cost_sparse q b - lmsr_cost_sparse (if side = "buy"
              then addAt q idx (min size_left DELTA_Q_MAX)
              else addAt q idx (-(min size_left DELTA_Q_MAX))) b))
        (size_left - min size_left DELTA_Q_MAX) hrest0 hrest10
      refine ⟨paid', ?_⟩
      rw [order_fill_loop, if_pos hpos, if_neg (by simp)]
      rw [hp]
      by_cases hside : side = "buy"
      · rw [if_pos hside, if_pos hside, addAt_addAt]
        have e1 : size_left ⊓ DELTA_Q_MAX + 1 * (size_left - size_left ⊓ DELTA_Q_MAX) =
            1 * size_left := by ring
        have e2 : filled + size_left ⊓ DELTA_Q_MAX + (size_left - size_left ⊓ DELTA_Q_MAX) =
            filled + size_left := by ring
        rw [e1, e2]
      · rw [if_neg hside, if_neg hside, addAt_addAt]
        have e1 : -(size_left ⊓ DELTA_Q_MAX) + -1 * (size_left - size_left ⊓ DELTA_Q_MAX) =
            -1 * size_left := by ring
        have e2 : filled + size_left ⊓ DELTA_Q_MAX + (size_left - size_left ⊓ DELTA_Q_MAX) =
            filled + size_left := by ring
        rw [e1, e2]
    · have hz : size_left = 0 := le_antisymm (not_lt.mp hpos) h0
      subst hz
      exact ⟨paid, by simp [order_fill_loop, addAt_zero]⟩

/-! ### Claim C3 -/

/-- Claim C3: on an existing order-book state, a market buy of size `s` at
bucket `idx` followed by a market sell of size `s` at the same bucket returns
the stored quantity vector exactly to its pre-trade value (given enough loop
fuel, `s ≤ 10 * fuel`). -/
theorem C3_market_roundtrip (q0 : List ℝ) (b : ℝ) (idx : ℕ) (s : ℝ) (fuel : ℕ)
    (hs : 0 < s) (hfuel : s ≤ 10 * fuel) :
    ((place_order (some ⟨q0, b⟩) idx "buy" s "market" 0 fuel).bind
      (fun out => place_order (some out.1) idx "sell" s "market" 0 fuel)).map
        (fun out => out.1.q) = some q0 := by
  obtain ⟨p1, h1⟩ := order_fill_loop_market b idx 0 "buy" fuel q0 0 0 s hs.le hfuel
  rw [if_pos rfl, one_mul] at h1
  obtain ⟨p2, h2⟩ := order_fill_loop_market b idx 0 "sell" fuel (addAt q0 idx s) 0 0 s hs.le hfuel
  rw [if_neg (by simp), neg_one_mul] at h2
  have hcomp : addAt (addAt q0 idx s) idx (-s) = q0 := by
    rw [addAt_addAt, add_neg_cancel, addAt_zero]
  simp [place_order, h1, h2, hcomp]

/-- Witness for C3 at `q0 = [0, 0]`, `b = 1`, `idx = 0`, `s = 5`, `fuel = 1`. -/
theorem C3_market_roundtrip_witness :
    ((0:ℝ) < 5 ∧ (5:ℝ) ≤ 10 * 1) ∧
    ((place_order (some ⟨[0, 0], 1⟩) 0 "buy" 5 "market" 0 1).bind
      (fun out => place_order (some out.1) 0 "sell" 5 "market" 0 1)).map
        (fun out => out.1.q) = some [0, 0] :=
  ⟨⟨by norm_num, by norm_num⟩,
    C3_market_roundtrip [0, 0] 1 0 5 1 (by norm_num) (by norm_num)⟩

/-! ### Claim C4 -/

/-- Claim C4 (code bug): a limit buy whose `limit_price` is below the marginal
price of the first step fills nothing (`filled = 0`, `status = 'partial'`) —
but the stored quantity vector is NOT unchanged: the rejected step's in-place
increment `q[idx] += dq` is committed to state before the `break`.  At state
`q = [0, 0]`, `b = 1`, a limit buy of size 1 at bucket 0 with limit price 0
leaves the stored vector at `[1, 0]`, contradicting the claim and §4.3/§8 of
the spec ("the step that violates the limit is not committed"). -/
theorem C4_limit_buy_mutates_state :
    place_order (some ⟨[0, 0], 1⟩) 0 "buy" 1 "limit" 0 1 =
      some (⟨[1, 0], 1⟩,
        { filled := 0, avg_price := 0, remaining := 1, status := "partial" }) ∧
    ([1, 0] : List ℝ) ≠ [0, 0] := by
  have hmin : min (1:ℝ) DELTA_Q_MAX = 1 := by
    rw [DELTA_Q_MAX]; norm_num
  have haddAt : addAt [0, 0] 0 (1:ℝ) = [1, 0] := by
    simp [addAt]
  have hprice : (0:ℝ) < lmsr_cost_sparse [1, 0] 1 - lmsr_cost_sparse [0, 0] 1 := by
    have := lmsr_cost_sparse_strict_mono [0, 0] 1 0 1 (by simp) one_pos (by simp) one_pos
    rw [haddAt] at this
    linarith
  have hbs : ¬ (("buy" : String) = "sell") := by decide
  constructor
  · simp only [place_order, order_fill_loop]
    rw [if_pos (by norm_num : (0:ℝ) < 1)]
    simp only [hmin, haddAt]
    simp [hprice, hbs]
  · simp

/-! ### Claim C6 -/

lemma payoff_vector_long_cons (kn : Knot) (rest : List Knot) (val : ℝ) :
    payoff_vector (kn :: rest) val "long" =
      (if val ≤ kn.x then (1:ℝ) else 0) :: payoff_vector rest val "long" := by
  simp [payoff_vector]

lemma price_per_contract_cons (w0 p : ℝ) (ws ps : List ℝ) :
    price_per_contract (p :: ps) (w0 :: ws) = w0 * p + price_per_contract ps ws := by
  simp [price_per_contract]

/-- Claim C6: for aligned knots and prices, the price of one long threshold
contract (`price_per_contract` on the 'long' `payoff_vector`) equals the sum of
the prices of exactly those knots whose value is at or above the threshold. -/
theorem C6_long_contract_price (knots : List Knot) (prices : List ℝ) (val : ℝ)
    (hlen : knots.length = prices.length) :
    price_per_contract prices (payoff_vector knots val "long") =
      (((knots.zip prices).filter (fun kp => decide (val ≤ kp.1.x))).map
        (fun kp => kp.2)).sum := by
  induction knots generalizing prices with
  | nil =>
    cases prices with
    | nil => simp [payoff_vector, price_per_contract]
    | cons p ps => simp at hlen
  | cons kn rest ih =>
    cases prices with
    | nil => simp at hlen
    | cons p ps =>
      have hlen' : rest.length = ps.length := by simpa using hlen
      rw [payoff_vector_long_cons, price_per_contract_cons, ih ps hlen']
      by_cases hc : val ≤ kn.x
      · simp [hc]
      · simp [hc]

/-- Witness for C6 at two knots and prices `[1/4, 3/4]`, threshold `2`. -/
theorem C6_long_contract_price_witness :
    ([(⟨1, 0⟩ : Knot), ⟨2, 0⟩].length = ([1/4, 3/4] : List ℝ).length) ∧
    price_per_contract [1/4, 3/4] (payoff_vector [⟨1, 0⟩, ⟨2, 0⟩] 2 "long") =
      ((([(⟨1, 0⟩ : Knot), ⟨2, 0⟩].zip ([1/4, 3/4] : List ℝ)).filter
        (fun kp => decide ((2:ℝ) ≤ kp.1.x))).map (fun kp => kp.2)).sum :=
  ⟨rfl, C6_long_contract_price [⟨1, 0⟩, ⟨2, 0⟩] [1/4, 3/4] 2 rfl⟩

/-! ### Index access lemmas for the single-knot trade commit -/

lemma map_q_getD : ∀ (knots : List Knot) (i : ℕ),
    (knots.map (fun kn => kn.q)).getD i 0 = (knots.getD i ⟨0, 0⟩).q := by
  intro knots
  induction knots with
  | nil => intro i; rfl
  | cons kn rest ih =>
    intro i
    cases i with
    | zero => simp
    | succ i => simpa using ih i

lemma addAt_getD_ne : ∀ (q : List ℝ) (k : ℕ) (s : ℝ) (i : ℕ), i ≠ k →
    (addAt q k s).getD i 0 = q.getD i 0 := by
  intro q
  induction q with
  | nil => intro k s i _; rfl
  | cons x xs ih =>
    intro k s i h
    cases k with
    | zero =>
      cases i with
      | zero => exact absurd rfl h
      | succ i => simp [addAt]
    | succ k =>
      cases i with
      | zero => simp [addAt]
      | succ i =>
        have h' : i ≠ k := fun hh => h (by rw [hh])
        simpa [addAt] using ih k s i h'

lemma addAt_getD_eq : ∀ (q : List ℝ) (k : ℕ) (s : ℝ), k < q.length →
    (addAt q k s).getD k 0 = q.getD k 0 + s := by
  intro q
  induction q with
  | nil => intro k s hk; exact absurd hk (Nat.not_lt_zero k)
  | cons x xs ih =>
    intro k s hk
    cases k with
    | zero => simp [addAt]
    | succ k =>
      have hk' : k < xs.length := Nat.succ_lt_succ_iff.mp hk
      simpa [addAt] using ih k s hk'

lemma setQs_getD_q : ∀ (knots : List Knot) (qs : List ℝ), knots.length = qs.length →
    ∀ i, ((setQs knots qs).getD i ⟨0, 0⟩).q = qs.getD i 0 := by
  intro knots
  induction knots with
  | nil =>
    intro qs h i
    cases qs with
    | nil => rfl
    | cons qv qvs => simp at h
  | cons kn rest ih =>
    intro qs h i
    cases qs with
    | nil => simp at h
    | cons qv qvs =>
      have h' : rest.length = qvs.length := by simpa using h
      cases i with
      | zero => simp [setQs]
      | succ i => simpa [setQs] using ih qvs h' i

lemma setQs_length (knots : List Knot) (qs : List ℝ) :
    (setQs knots qs).length = min knots.length qs.length := by
  simp [setQs]

/-! ### Claim C5 (corrected) -/

/-- Amended claim C5: the execution path `quote_and_trade` moves ONLY the single
knot matched to the threshold value — every other knot, including the other
knots in the payoff support, keeps its quantity — and the whole-vector helper
`lmsr_trade` (which is what the original claim describes, but which the
execution path never calls) does move every knot by `m * w_k`. -/
theorem C5_trade_moves_only_matched_knot (st : AmmState) (val : ℝ) (dir : String)
    (n : ℝ) (k : ℕ) (st2 : AmmState) (pay : ℝ)
    (hk : matchIdx (insert_knot st val).knots val = some k)
    (hres : quote_and_trade st val dir n = some (st2, pay)) :
    (∀ i : ℕ, i ≠ k →
      (st2.knots.getD i ⟨0, 0⟩).q = ((insert_knot st val).knots.getD i ⟨0, 0⟩).q) ∧
    (dir = "buy" → k < st2.knots.length →
      (st2.knots.getD k ⟨0, 0⟩).q = ((insert_knot st val).knots.getD k ⟨0, 0⟩).q + n) ∧
    (dir = "sell" → k < st2.knots.length →
      (st2.knots.getD k ⟨0, 0⟩).q = ((insert_knot st val).knots.getD k ⟨0, 0⟩).q - n) ∧
    (∀ (q w : List ℝ) (b m : ℝ) (i : ℕ), i < q.length →
      (lmsr_trade q (w.map (fun wi => m * wi)) b).q_after.getD i 0 =
        q.getD i 0 + m * w.getD i 0) := by
  have hlm : ∀ (q w : List ℝ) (b m : ℝ) (i : ℕ), i < q.length →
      (lmsr_trade q (w.map (fun wi => m * wi)) b).q_after.getD i 0 =
        q.getD i 0 + m * w.getD i 0 := by
    intro q
    induction q with
    | nil => intro w b m i hi; exact absurd hi (Nat.not_lt_zero i)
    | cons qk rest ih =>
      intro w b m i hi
      cases w with
      | nil =>
        cases i with
        | zero => simp [lmsr_trade, addDelta]
        | succ i =>
          have hi' : i < rest.length := Nat.succ_lt_succ_iff.mp hi
          have := ih [] b m i hi'
          simpa [lmsr_trade, addDelta] using this
      | cons w0 ws =>
        cases i with
        | zero => simp [lmsr_trade, addDelta]
        | succ i =>
          have hi' : i < rest.length := Nat.succ_lt_succ_iff.mp hi
          have := ih ws b m i hi'
          simpa [lmsr_trade, addDelta] using this
  simp only [quote_and_trade, hk] at hres
  cases hquote : get_quotes_for_bucket (insert_knot st val) k n with
  | none => rw [hquote] at hres; simp at hres
  | some qt =>
    simp only [hquote] at hres
    have hlen0 : ((insert_knot st val).knots.map (fun kn => kn.q)).length =
        (insert_knot st val).knots.length := List.length_map _ _
    by_cases hbuy : dir = "buy"
    · rw [if_pos hbuy] at hres
      simp only [Option.some.injEq, Prod.mk.injEq] at hres
      obtain ⟨hst2, _⟩ := hres
      have hsq : st2.knots = setQs (insert_knot st val).knots
          (addAt ((insert_knot st val).knots.map (fun kn => kn.q)) k n) := by
        rw [← hst2]
      have hqlen : (insert_knot st val).knots.length =
          (addAt ((insert_knot st val).knots.map (fun kn => kn.q)) k n).length := by
        rw [addAt_length, hlen0]
      refine ⟨?_, ?_, ?_, hlm⟩
      · intro i hi
        rw [hsq, setQs_getD_q _ _ hqlen, addAt_getD_ne _ _ _ _ hi, map_q_getD]
      · intro _ hklt
        have hklen : k < ((insert_knot st val).knots.map (fun kn => kn.q)).length := by
          rw [hsq, setQs_length, ← hqlen, min_self] at hklt
          rw [hlen0]
          exact hklt
        rw [hsq, setQs_getD_q _ _ hqlen, addAt_getD_eq _ _ _ hklen, map_q_getD]
      · intro hsell _
        rw [hsell] at hbuy
        exact absurd hbuy (by decide)
    · rw [if_neg hbuy] at hres
      by_cases hsell : dir = "sell"
      · rw [if_pos hsell] at hres
        simp only [Option.some.injEq, Prod.mk.injEq] at hres
        obtain ⟨hst2, _⟩ := hres
        have hsq : st2.knots = setQs (insert_knot st val).knots
            (addAt ((insert_knot st val).knots.map (fun kn => kn.q)) k (-n)) := by
          rw [← hst2]
        have hqlen : (insert_knot st val).knots.length =
            (addAt ((insert_knot st val).knots.map (fun kn => kn.q)) k (-n)).length := by
          rw [addAt_length, hlen0]
        refine ⟨?_, ?_, ?_, hlm⟩
        · intro i hi
          rw [hsq, setQs_getD_q _ _ hqlen, addAt_getD_ne _ _ _ _ hi, map_q_getD]
        · intro hb' _
          exact absurd hb' hbuy
        · intro _ hklt
          have hklen : k < ((insert_knot st val).knots.map (fun kn => kn.q)).length := by
            rw [hsq, setQs_length, ← hqlen, min_self] at hklt
            rw [hlen0]
            exact hklt
          rw [hsq, setQs_getD_q _ _ hqlen, addAt_getD_eq _ _ _ hklen, map_q_getD]
          ring
      · rw [if_neg hsell] at hres
        exact absurd hres (by simp)

lemma c5_insert_noop : insert_knot c5State 2 = c5State :=
  insert_knot_noop c5State 2 ⟨⟨2, 0⟩, by simp [c5State], by norm_num⟩

lemma c5_matchIdx0 : matchIdx c5State.knots 2 = some 1 := by
  norm_num [matchIdx, matchIdxAux, c5State]

lemma c5_matchIdx : matchIdx (insert_knot c5State 2).knots 2 = some 1 := by
  rw [c5_insert_noop]
  exact c5_matchIdx0

lemma c5_eval : quote_and_trade c5State 2 "buy" 1 = some (c5StateAfter, c5Pay) := by
  have hb : c5State.b = 1 := rfl
  have hmap : c5State.knots.map (fun kn => kn.q) = [0, 0, 0] := rfl
  have haa : addAt [0, 0, 0] 1 (1:ℝ) = [0, 1, 0] := by simp [addAt]
  have hab : addAt [0, 0, 0] 1 (-1:ℝ) = [0, -1, 0] := by simp [addAt]
  have hask1 : ask [0, 0, 0] 1 1 1 =
      some (1 * Real.log (Z [0, 1, 0] 1) - 1 * Real.log (Z [0, 0, 0] 1)) := by
    unfold ask
    rw [haa, C_eq_some [0, 1, 0] 1 (by simp), C_eq_some [0, 0, 0] 1 (by simp)]
  have hbid1 : bid [0, 0, 0] 1 1 1 =
      some (1 * Real.log (Z [0, 0, 0] 1) - 1 * Real.log (Z [0, -1, 0] 1)) := by
    unfold bid
    rw [hab, C_eq_some [0, -1, 0] 1 (by simp), C_eq_some [0, 0, 0] 1 (by simp)]
  obtain ⟨qt, hquote, hask⟩ :
      ∃ qt, get_quotes_for_bucket c5State 1 1 = some qt ∧ qt.ask = c5Pay := by
    simp only [get_quotes_for_bucket, hmap, hb]
    rw [if_pos (by norm_num : 1 < ([0, 0, 0] : List ℝ).length)]
    rw [hask1, hbid1]
    exact ⟨_, rfl, rfl⟩
  simp only [quote_and_trade, c5_insert_noop, c5_matchIdx0, hquote, if_true]
  rw [hask]
  simp [c5State, c5StateAfter, setQs, addAt]

/-- Counterexample to claim C5: executing a threshold-contract trade of 1 unit
at threshold `2` on `c5State` via `quote_and_trade` does NOT change the
quantity of every knot in the payoff support by `n * w_k`: the knot at `x = 4`
has payoff weight 1 in the long-at-2 contract, yet its quantity stays at `0`
(only the single matched knot at `x = 2` moves).  The payment charged is the
rounded single-knot ask quote, not a whole-vector cost delta. -/
theorem C5_counterexample :
    quote_and_trade c5State 2 "buy" 1 = some (c5StateAfter, c5Pay) ∧
    (payoff_vector c5StateAfter.knots 2 "long").getD 2 0 = 1 ∧
    (c5StateAfter.knots.getD 2 ⟨0, 0⟩).q = 0 ∧
    (c5State.knots.getD 2 ⟨0, 0⟩).q + 1 * 1 ≠ (c5StateAfter.knots.getD 2 ⟨0, 0⟩).q := by
  refine ⟨c5_eval, ?_, ?_, ?_⟩
  · norm_num [payoff_vector, c5StateAfter]
  · rfl
  · norm_num [c5State, c5StateAfter]

/-- Witness for the amended C5 at the concrete trade on `c5State`. -/
theorem C5_trade_moves_only_matched_knot_witness :
    (matchIdx (insert_knot c5State 2).knots 2 = some 1 ∧
      quote_and_trade c5State 2 "buy" 1 = some (c5StateAfter, c5Pay)) ∧
    ((∀ i : ℕ, i ≠ 1 →
      (c5StateAfter.knots.getD i ⟨0, 0⟩).q =
        ((insert_knot c5State 2).knots.getD i ⟨0, 0⟩).q) ∧
    (("buy" : String) = "buy" → 1 < c5StateAfter.knots.length →
      (c5StateAfter.knots.getD 1 ⟨0, 0⟩).q =
        ((insert_knot c5State 2).knots.getD 1 ⟨0, 0⟩).q + 1) ∧
    (("buy" : String) = "sell" → 1 < c5StateAfter.knots.length →
      (c5StateAfter.knots.getD 1 ⟨0, 0⟩).q =
        ((insert_knot c5State 2).knots.getD 1 ⟨0, 0⟩).q - 1) ∧
    (∀ (q w : List ℝ) (b m : ℝ) (i : ℕ), i < q.length →
      (lmsr_trade q (w.map (fun wi => m * wi)) b).q_after.getD i 0 =
        q.getD i 0 + m * w.getD i 0)) :=
  ⟨⟨c5_matchIdx, c5_eval⟩,
    C5_trade_moves_only_matched_knot c5State 2 "buy" 1 1 c5StateAfter c5Pay
      c5_matchIdx c5_eval⟩

/-! ### Claim C9 (corrected) -/

lemma cdfFrom_getD_le : ∀ (p : List ℝ) (s : ℝ), (∀ y ∈ p, 0 ≤ y) → 0 ≤ s →
    ∀ i : ℕ, (cdfFrom s p).getD i 0 ≤ s + p.sum := by
  intro p
  induction p with
  | nil =>
    intro s _ hs i
    simpa [cdfFrom] using hs
  | cons pk rest ih =>
    intro s hp hs i
    have hpk : 0 ≤ pk := hp pk (List.mem_cons_self pk rest)
    have hrest : ∀ y ∈ rest, (0:ℝ) ≤ y := fun y hy => hp y (List.mem_cons_of_mem pk hy)
    have hrsum : 0 ≤ rest.sum := List.sum_nonneg hrest
    cases i with
    | zero =>
      simp only [cdfFrom, List.getD_cons_zero, List.sum_cons]
      linarith
    | succ i =>
      have := ih (s + pk) hrest (by linarith) i
      simp only [cdfFrom, List.getD_cons_succ, List.sum_cons]
      linarith

lemma sTau_nonneg (p : List ℝ) (hp : ∀ y ∈ p, 0 ≤ y) (hsum : p.sum ≤ 1) :
    0 ≤ sTauOf p := by
  unfold sTauOf
  have h := cdfFrom_getD_le p 0 hp le_rfl (findTau p)
  linarith

/-- At or above the split, `hybrid_prob` is antitone in the tail index: a
smaller `alpha` (fatter tail) gives a larger exceedance probability. -/
lemma hybrid_prob_anti (p : List ℝ) (knots : List Knot) (xK : ℝ)
    (hx : xTauOf p knots ≤ xK) (hS : 0 ≤ sTauOf p) {a a' : ℝ} (ha : a ≤ a') :
    hybrid_prob p knots xK a' ≤ hybrid_prob p knots xK a := by
  unfold hybrid_prob
  rw [if_neg (not_lt.mpr hx), if_neg (not_lt.mpr hx)]
  apply mul_le_mul_of_nonneg_left _ hS
  apply (Real.rpow_le_rpow_left_iff (by norm_num : (1:ℝ) < 10)).mpr
  have hd : 0 ≤ xK - xTauOf p knots := sub_nonneg.mpr hx
  nlinarith

/-- Amended claim C9: for a price vector with nonnegative entries of total mass
at most 1, a nonnegative perturbation `delta`, and a query threshold `K` at or
above the fitted split `x_tau`, the scenario probabilities returned by
`lmsr_lognormal_pareto` satisfy `high ≤ base ≤ low` — the reverse of the
claimed `low ≤ base ≤ high`, because the `low` scenario uses `alpha - delta`
(a fatter tail) which yields the larger exceedance probability. -/
theorem C9_scenario_ordering (p : List ℝ) (knots : List Knot) (K : ℝ) (delta : ℝ)
    (hp : ∀ y ∈ p, 0 ≤ y) (hsum : p.sum ≤ 1) (hdelta : 0 ≤ delta)
    (hK : (lmsr_lognormal_pareto p knots K delta).tau ≤ Real.logb 10 K) :
    (lmsr_lognormal_pareto p knots K delta).high ≤
        (lmsr_lognormal_pareto p knots K delta).base ∧
      (lmsr_lognormal_pareto p knots K delta).base ≤
        (lmsr_lognormal_pareto p knots K delta).low := by
  have hS := sTau_nonneg p hp hsum
  have hx : xTauOf p knots ≤ Real.logb 10 K := hK
  exact ⟨hybrid_prob_anti p knots _ hx hS (by linarith),
    hybrid_prob_anti p knots _ hx hS (by linarith)⟩

lemma logb_ten_ten : Real.logb 10 (10:ℝ) = 1 :=
  Real.logb_self_eq_one (by norm_num)

lemma logb_ten_hundred : Real.logb 10 (100:ℝ) = 2 := by
  rw [show (100:ℝ) = 10 ^ (2:ℕ) by norm_num, Real.logb_pow, logb_ten_ten]
  norm_num

lemma logb_ten_thousand : Real.logb 10 (1000:ℝ) = 3 := by
  rw [show (1000:ℝ) = 10 ^ (3:ℕ) by norm_num, Real.logb_pow, logb_ten_ten]
  norm_num

lemma xs9 : xsOf knots9 = [1, 2, 3] := by
  simp [xsOf, knots9, logb_ten_ten, logb_ten_hundred, logb_ten_thousand]

lemma findTau9 : findTau p9 = 1 := by
  norm_num [findTau, p9, findTauAux]

lemma xtau9 : xTauOf p9 knots9 = 2 := by
  unfold xTauOf
  rw [xs9, findTau9]
  norm_num

lemma stau9 : sTauOf p9 = 9/100 := by
  unfold sTauOf
  rw [findTau9]
  norm_num [cdfFrom, p9]

lemma alpha9 : alphaBaseOf p9 knots9 = 50/9 := by
  unfold alphaBaseOf denomOf
  rw [findTau9, xs9, xtau9]
  norm_num [p9, List.filter]

/-- Counterexample to claim C9: at the price vector `p9 = [0.5, 0.41, 0.09]`
on knots `x = 10, 100, 1000` the fitted split is `x_tau = 2` (log10 scale) and
for the query `K = 1000` (at/above the split) the returned scenarios satisfy
`base < low`, refuting `low ≤ base ≤ high`. -/
theorem C9_counterexample :
    (lmsr_lognormal_pareto p9 knots9 1000 (3/10)).tau ≤ Real.logb 10 1000 ∧
    (lmsr_lognormal_pareto p9 knots9 1000 (3/10)).base <
      (lmsr_lognormal_pareto p9 knots9 1000 (3/10)).low := by
  constructor
  · show xTauOf p9 knots9 ≤ Real.logb 10 1000
    rw [xtau9, logb_ten_thousand]
    norm_num
  · show hybrid_prob p9 knots9 (Real.logb 10 1000) (alphaBaseOf p9 knots9) <
      hybrid_prob p9 knots9 (Real.logb 10 1000) (alphaBaseOf p9 knots9 - 3/10)
    rw [logb_ten_thousand, alpha9]
    unfold hybrid_prob
    rw [xtau9, stau9]
    rw [if_neg (by norm_num), if_neg (by norm_num)]
    apply mul_lt_mul_of_pos_left _ (by norm_num : (0:ℝ) < 9/100)
    apply (Real.rpow_lt_rpow_left_iff (by norm_num : (1:ℝ) < 10)).mpr
    norm_num

/-- Witness for the amended C9 at the concrete instance of the counterexample. -/
theorem C9_scenario_ordering_witness :
    ((∀ y ∈ p9, (0:ℝ) ≤ y) ∧ p9.sum ≤ 1 ∧ (0:ℝ) ≤ 3/10 ∧
      (lmsr_lognormal_pareto p9 knots9 1000 (3/10)).tau ≤ Real.logb 10 1000) ∧
    ((lmsr_lognormal_pareto p9 knots9 1000 (3/10)).high ≤
        (lmsr_lognormal_pareto p9 knots9 1000 (3/10)).base ∧
      (lmsr_lognormal_pareto p9 knots9 1000 (3/10)).base ≤
        (lmsr_lognormal_pareto p9 knots9 1000 (3/10)).low) := by
  have h1 : ∀ y ∈ p9, (0:ℝ) ≤ y := by
    intro y hy
    simp only [p9, List.mem_cons, List.not_mem_nil, or_false] at hy
    rcases hy with rfl | rfl | rfl <;> norm_num
  have h2 : p9.sum ≤ 1 := by norm_num [p9]
  have h4 : (lmsr_lognormal_pareto p9 knots9 1000 (3/10)).tau ≤ Real.logb 10 1000 := by
    show xTauOf p9 knots9 ≤ Real.logb 10 1000
    rw [xtau9, logb_ten_thousand]
    norm_num
  exact ⟨⟨h1, h2, by norm_num, h4⟩,
    C9_scenario_ordering p9 knots9 1000 (3/10) h1 h2 (by norm_num) h4⟩

end
